import Mathlib

/-!
Verification of the AIDL compiler front end (aidl.cpp) against its
natural-language specification.  The definitions below are a shallow
embedding of the C++ source: C++ strings are modelled as `List Char`,
C++ `int` as `Int`, in-place mutation as explicit state passing, and the
early `return` statements of the C++ as `Except` / explicit result
construction.  Classes whose code is not part of the provided sources
(the AST accessors and the type namespace) are abstracted; each such
definition carries a doc comment starting with `Modelled from the spec:`.
-/

namespace Aidl

/-- Lower bound for user-assigned method ids (aidl.cpp line 68). -/
def kMinUserSetMethodId : Int := 0

/-- Upper bound for user-assigned method ids (aidl.cpp line 69). -/
def kMaxUserSetMethodId : Int := 16777214

/-- A type reference as it appears on a method or argument: just its name,
which is all `check_types` inspects directly. -/
structure AidlType where
  name : String
deriving DecidableEq

/-- Argument directionality as written in the IDL source. -/
inductive Direction where
  | dIn
  | dOut
  | dInout
deriving DecidableEq

/-- A method argument: name, type reference and directionality. -/
structure AidlArgument where
  name : String
  argType : AidlType
  direction : Direction
deriving DecidableEq

/-- Modelled from the spec: `AidlArgument::IsOut` (class declared in
aidl_language.h, not among the provided sources).  Per the spec an
argument is "out" exactly when its directionality is `out` or `inout`. -/
def AidlArgument.IsOut (a : AidlArgument) : Bool :=
  match a.direction with
  | .dIn => false
  | .dOut => true
  | .dInout => true

/-- A method declaration: name, return type, oneway flag, arguments,
source line, and the optional explicit id (`hasId_` true when the source
wrote `= N`). -/
structure AidlMethod where
  name : String
  retType : AidlType
  oneway : Bool
  args : List AidlArgument
  line : Nat
  hasId_ : Bool
  id_ : Int
deriving DecidableEq

/-- Modelled from the spec: `AidlMethod::HasId` reports whether the
source gave the method an explicit id. -/
def AidlMethod.HasId (m : AidlMethod) : Bool := m.hasId_

/-- Modelled from the spec: `AidlMethod::GetId` returns the stored id. -/
def AidlMethod.GetId (m : AidlMethod) : Int := m.id_

/-- Modelled from the spec: `AidlMethod::SetId` stores a new id. -/
def AidlMethod.SetId (m : AidlMethod) (newId : Int) : AidlMethod :=
  { m with id_ := newId }

/-- An interface declaration (the fields `check_types`,
`check_and_assign_method_ids` and the driver inspect). -/
structure AidlInterface where
  name : String
  package : String
  line : Nat
  oneway : Bool
  methods : List AidlMethod
deriving DecidableEq

/-- The diagnostics `check_and_assign_method_ids` can print
(aidl.cpp lines 412, 421, 433). -/
inductive MethodIdDiag where
  | duplicateId (line : Nat) (id : Int) (method : String)
  | outOfBoundsId (line : Nat) (id : Int) (method : String)
  | mixedIds
deriving DecidableEq

/-- The scanning loop of `check_and_assign_method_ids` (aidl.cpp lines
403-438).  State: the set of already seen user ids (modelled as a list,
queried only through membership), and the two flags.  An `error` result
models the C++ `return 1` together with the diagnostic printed there; an
`ok` result carries the final value of `hasUnassignedIds`. -/
def camiScan : List AidlMethod → List Int → Bool → Bool → Except MethodIdDiag Bool
  | [], _, _, hasUnassignedIds => .ok hasUnassignedIds
  | item :: rest, usedIds, hasAssignedIds, hasUnassignedIds =>
    if item.HasId then
      -- hasAssignedIds = true;
      let hasAssignedIds := true
      if usedIds.contains item.GetId then
        .error (.duplicateId item.line item.GetId item.name)
      else if item.GetId < kMinUserSetMethodId || item.GetId > kMaxUserSetMethodId then
        .error (.outOfBoundsId item.line item.GetId item.name)
      else
        let usedIds := item.GetId :: usedIds
        if hasAssignedIds && hasUnassignedIds then
          .error .mixedIds
        else
          camiScan rest usedIds hasAssignedIds hasUnassignedIds
    else
      let hasUnassignedIds := true
      if hasAssignedIds && hasUnassignedIds then
        .error .mixedIds
      else
        camiScan rest usedIds hasAssignedIds hasUnassignedIds

/-- The assignment loop of `check_and_assign_method_ids` (aidl.cpp lines
441-446): `int newId = 0; for (item : items) item->SetId(newId++);`. -/
def assignSeqIds : List AidlMethod → Int → List AidlMethod
  | [], _ => []
  | m :: rest, newId => m.SetId newId :: assignSeqIds rest (newId + 1)

/-- `check_and_assign_method_ids` (aidl.cpp lines 398-450).  Returns the
C++ return value, the method list after any in-place mutation, and the
diagnostics printed.  On every error path the C++ returns before the
assignment loop, so the methods are returned unchanged there. -/
def check_and_assign_method_ids (items : List AidlMethod) :
    Int × List AidlMethod × List MethodIdDiag :=
  match camiScan items [] false false with
  | .error d => (1, items, [d])
  | .ok hasUnassignedIds =>
    if hasUnassignedIds then
      (0, assignSeqIds items 0, [])
    else
      (0, items, [])

/-- Specification predicate: no method carries an explicit id. -/
def AllImplicit (items : List AidlMethod) : Prop :=
  ∀ m ∈ items, m.hasId_ = false

/-- Specification predicate: every method carries an explicit id, each id
lies in the user-settable range, and the ids are pairwise distinct. -/
def AllExplicitValid (items : List AidlMethod) : Prop :=
  (∀ m ∈ items,
      m.hasId_ = true ∧ kMinUserSetMethodId ≤ m.id_ ∧ m.id_ ≤ kMaxUserSetMethodId) ∧
  (items.map (fun m => m.id_)).Nodup

instance : DecidablePred AllImplicit := fun items =>
  inferInstanceAs (Decidable (∀ m ∈ items, m.hasId_ = false))

instance : DecidablePred AllExplicitValid := fun _items =>
  inferInstanceAs (Decidable (_ ∧ _))

/-- Boolean transcription of the invariant the explicit-id branch of the
scan maintains: every remaining method has an explicit, fresh, in-bounds
id, freshness being tracked against the accumulated `used` list. -/
def explicitChainOk : List AidlMethod → List Int → Bool
  | [], _ => true
  | m :: rest, used =>
    m.hasId_ && !used.contains m.id_ &&
      !(m.id_ < kMinUserSetMethodId || m.id_ > kMaxUserSetMethodId) &&
      explicitChainOk rest (m.id_ :: used)

/-- Concrete method with an implicit id, for witnesses. -/
def demoEcho : AidlMethod :=
  { name := "echo", retType := { name := "String" }, oneway := false,
    args := [], line := 1, hasId_ := false, id_ := 0 }

/-- Concrete second method with an implicit id, for witnesses. -/
def demoAdd : AidlMethod :=
  { name := "add", retType := { name := "int" }, oneway := false,
    args := [], line := 2, hasId_ := false, id_ := 0 }

/-- Concrete method with an explicit id, for witnesses. -/
def demoExplicit3 : AidlMethod :=
  { name := "a", retType := { name := "void" }, oneway := false,
    args := [], line := 1, hasId_ := true, id_ := 3 }

/-- Modelled from the spec: the operations of the language-parametric
type namespace consulted by `check_types` and the driver
(type_namespace.h is not among the provided sources).  The state type
`σ` is abstract; `MaybeAddContainerType` may extend the namespace and
returns whether the type is acceptable, while the validity queries
observe the current state. -/
structure TypeNamespaceOps (σ : Type) where
  MaybeAddContainerType : String → σ → Bool × σ
  IsValidReturnType : AidlType → σ → Bool
  IsValidArg : AidlArgument → Int → σ → Bool
  IsValidPackage : String → σ → Bool

/-- The diagnostics `check_types` itself prints
(aidl.cpp lines 203, 217, 229). -/
inductive CheckTypesDiag where
  | onewayReturn (line : Nat) (method : String)
  | onewayOutParam (line : Nat) (method : String)
  | duplicateMethod (line prevLine : Nat) (method : String)
deriving DecidableEq

/-- The mutable state of a `check_types` pass: the C++ `err` flag, the
type namespace (mutated through `MaybeAddContainerType`), the
`method_names` map (an association list inserted only at absent keys),
the diagnostics printed so far, and the outcome of every individual
check performed, in execution order. -/
structure CheckTypesState (σ : Type) where
  err : Int
  ns : σ
  methodNames : List (String × AidlMethod)
  diags : List CheckTypesDiag
  checks : List Bool

/-- The inner argument loop of `check_types` (aidl.cpp lines 209-222).
The C++ declares `int index = 1` and never increments it, so the same
index is passed to `IsValidArg` for every argument; the model passes
`index` along unchanged to mirror that.  The short-circuit in
`!MaybeAddContainerType(..) || !IsValidArg(..)` cannot change the value
of the conjunction because the validity query is a pure observation. -/
def ctArgs (tn : TypeNamespaceOps σ) (oneway : Bool) (m : AidlMethod) (index : Int) :
    List AidlArgument → CheckTypesState σ → CheckTypesState σ
  | [], s => s
  | arg :: rest, s =>
    let p := tn.MaybeAddContainerType arg.argType.name s.ns
    let argOk := p.1 && tn.IsValidArg arg index p.2
    let s1 : CheckTypesState σ :=
      { s with
        ns := p.2,
        err := (if argOk then s.err else 1),
        checks := s.checks ++ [argOk] }
    let onewayBad := oneway && arg.IsOut
    let s2 : CheckTypesState σ :=
      if onewayBad then
        { s1 with
          err := 1,
          diags := s1.diags ++ [.onewayOutParam m.line m.name],
          checks := s1.checks ++ [false] }
      else
        { s1 with checks := s1.checks ++ [true] }
    ctArgs tn oneway m index rest s2

/-- The return-type portion of the `check_types` method body
(aidl.cpp lines 197-207): container synthesis plus return-type validity,
then the oneway-must-return-void check. -/
def ctRetStep (tn : TypeNamespaceOps σ) (c : AidlInterface) (m : AidlMethod)
    (s : CheckTypesState σ) : CheckTypesState σ :=
  let oneway := m.oneway || c.oneway
  let p := tn.MaybeAddContainerType m.retType.name s.ns
  let retOk := p.1 && tn.IsValidReturnType m.retType p.2
  let s1 : CheckTypesState σ :=
    { s with
      ns := p.2,
      err := (if retOk then s.err else 1),
      checks := s.checks ++ [retOk] }
  let onewayRetBad := oneway && !(m.retType.name == "void")
  if onewayRetBad then
    { s1 with
      err := 1,
      diags := s1.diags ++ [.onewayReturn m.line m.name],
      checks := s1.checks ++ [false] }
  else
    { s1 with checks := s1.checks ++ [true] }

/-- The duplicate-method-name portion of the `check_types` method body
(aidl.cpp lines 224-234). -/
def ctDupStep (m : AidlMethod) (s : CheckTypesState σ) : CheckTypesState σ :=
  match s.methodNames.lookup m.name with
  | none =>
    { s with
      methodNames := (m.name, m) :: s.methodNames,
      checks := s.checks ++ [true] }
  | some prev =>
    { s with
      err := 1,
      diags := s.diags ++ [.duplicateMethod m.line prev.line m.name],
      checks := s.checks ++ [false] }

/-- The per-method body of the `check_types` loop (aidl.cpp lines
194-235): return-type checks, then the argument loop, then the
duplicate-name check. -/
def ctMethod (tn : TypeNamespaceOps σ) (c : AidlInterface) (m : AidlMethod)
    (s : CheckTypesState σ) : CheckTypesState σ :=
  ctDupStep m (ctArgs tn (m.oneway || c.oneway) m 1 m.args (ctRetStep tn c m s))

/-- The method loop of `check_types`. -/
def ctLoop (tn : TypeNamespaceOps σ) (c : AidlInterface) :
    List AidlMethod → CheckTypesState σ → CheckTypesState σ
  | [], s => s
  | m :: rest, s => ctLoop tn c rest (ctMethod tn c m s)

/-- `check_types` (aidl.cpp lines 187-237), started on namespace state
`ns0` with `err = 0` and an empty `method_names` map. -/
def check_types (tn : TypeNamespaceOps σ) (c : AidlInterface) (ns0 : σ) :
    CheckTypesState σ :=
  ctLoop tn c c.methods
    { err := 0, ns := ns0, methodNames := [], diags := [], checks := [] }

/-- A concrete namespace-operation record over the trivial state, for
witnesses: every query succeeds. -/
def demoNamespaceOps : TypeNamespaceOps Unit :=
  { MaybeAddContainerType := fun _ s => (true, s),
    IsValidReturnType := fun _ _ => true,
    IsValidArg := fun _ _ _ => true,
    IsValidPackage := fun _ _ => true }

/-- A concrete oneway method with a void return, for witnesses. -/
def demoOnewayMethod : AidlMethod :=
  { name := "ping", retType := { name := "void" }, oneway := true,
    args := [{ name := "x", argType := { name := "int" }, direction := .dIn }],
    line := 3, hasId_ := false, id_ := 0 }

/-- A concrete interface holding `demoOnewayMethod`, for witnesses. -/
def demoOnewayIface : AidlInterface :=
  { name := "IDemo", package := "com.x", line := 1, oneway := false,
    methods := [demoOnewayMethod] }

/-- The OS path separator of the platform modelled here (the Linux
branch of aidl.cpp). -/
def OS_PATH_SEPARATOR : Char := '/'

/-- The loop of `check_filename` that rewrites every dot of the expected
string into a path separator (aidl.cpp lines 103-108). -/
def dotsToSeparators (s : List Char) : List Char :=
  s.map (fun ch => if ch = '.' then OS_PATH_SEPARATOR else ch)

/-- The `expected` string built by `check_filename` (aidl.cpp lines
98-112): the package plus a trailing dot when the package is nonempty,
dots turned into separators, then the name truncated at its first dot
(`expected.append(name, 0, name.find(OS_PATH_SEPARATOR))` semantics of
line 110), then the literal extension ".aidl". -/
def expectedPath (package name : List Char) : List Char :=
  dotsToSeparators (if package = [] then [] else package ++ ['.']) ++
    name.takeWhile (fun ch => ch ≠ '.') ++ (".aidl").data

/-- The absolutization step of `check_filename` (aidl.cpp lines 82-96):
a path starting with the separator is kept; otherwise the current
working directory, followed by a separator when it does not already end
in one, is prepended. -/
def absolutize (cwd filename : List Char) : List Char :=
  if filename.head? = some OS_PATH_SEPARATOR then filename
  else
    (if cwd.getLast? = some OS_PATH_SEPARATOR then cwd else cwd ++ [OS_PATH_SEPARATOR]) ++
      filename

/-- `check_filename` (aidl.cpp lines 71-146, Linux branch): absolutize
the input path, build the expected string, and accept exactly when the
path is long enough and its last `expected.length` characters equal the
expected string (`p = fn.c_str() + (len - expected.length())` followed
by `expected == p`). -/
def check_filename (cwd filename package name : List Char) : Bool :=
  let fn := absolutize cwd filename
  let expected := expectedPath package name
  if expected.length ≤ fn.length then
    decide (fn.drop (fn.length - expected.length) = expected)
  else
    false

/-- Split a character list at every occurrence of `sep`, keeping empty
components; the component view of a path or dotted name. -/
def splitOnChar (sep : Char) : List Char → List (List Char)
  | [] => [[]]
  | ch :: rest =>
    if ch = sep then
      [] :: splitOnChar sep rest
    else
      match splitOnChar sep rest with
      | [] => [[ch]]
      | p :: ps => (ch :: p) :: ps

/-- The specification reading of the filename rule, written for
comparison with the code: the trailing path components of the
absolutized path must equal the package components followed by
`name.aidl` — a component-aligned match. -/
def check_filename_components (cwd filename package name : List Char) : Bool :=
  let comps := splitOnChar OS_PATH_SEPARATOR (absolutize cwd filename)
  let tailComps :=
    (if package = [] then [] else splitOnChar '.' package) ++
      [name.takeWhile (fun ch => ch ≠ '.') ++ (".aidl").data]
  List.isSuffixOf tailComps comps

/-- The outcome of handling one import of the primary file in the import
loop of `load_and_validate_aidl` (aidl.cpp lines 502-531): the namespace
already has the type (`continue`, no error), the resolver found no file
(`err |= 1`), the import failed to parse (`err |= 1`), or it parsed and
`check_filenames` returned the recorded verdict. -/
inductive ImportOutcome where
  | alreadyHasType
  | notFound
  | parseFailed
  | parsed (filenamesOk : Bool)
deriving DecidableEq

/-- The error contribution of one import outcome to the driver's `err`. -/
def importErr : ImportOutcome → Int
  | .alreadyHasType => 0
  | .notFound => 1
  | .parseFailed => 1
  | .parsed ok => if ok then 0 else 1

/-- The phases of `load_and_validate_aidl`, in source order; `finished`
marks the successful hand-off of the validated interface. -/
inductive Phase where
  | loadPreprocessed
  | parsePrimary
  | filenameCheck
  | resolveImports
  | gatherTypes
  | validatePackage
  | checkTypesPhase
  | assignMethodIds
  | finished
deriving DecidableEq

/-- The primary parse result (aidl.cpp lines 476-494): parse failure, a
document that is not a single interface, or an interface. -/
inductive PrimaryParse where
  | parseError
  | notAnInterface
  | interfaceDoc (c : AidlInterface)
deriving DecidableEq

/-- The environment one run of `load_and_validate_aidl` operates in: the
results obtained from its abstracted collaborators (per-preprocessed-file
parse results, the primary parse, the per-import outcomes, the
`gather_types` verdicts) together with the namespace operations, the
namespace state used by the validation calls (the mutations performed by
`gather_types` are not modelled; no claim depends on them), and the
working directory consulted by `check_filename`. -/
structure LavEnv (σ : Type) where
  tn : TypeNamespaceOps σ
  ns : σ
  preErrs : List Int
  primary : PrimaryParse
  cwd : List Char
  importOutcomes : List ImportOutcome
  gatherPrimaryOk : Bool
  gatherImportOks : List Bool

/-- The observable result of `load_and_validate_aidl`: the returned
error value and the phases the run performed. -/
structure LavResult where
  err : Int
  phases : List Phase
deriving DecidableEq

/-- `load_and_validate_aidl` (aidl.cpp lines 456-571), mirroring its
control flow: preprocessed files are loaded (`err |=` each result) with
an early return on error; the primary file is parsed with early returns
for failure and non-interface documents; `check_filename` failure sets
`err |= 1`; the import loop accumulates `err |=` per import; the early
return of lines 532-534 fires when `err` is nonzero; then types are
gathered, the package validated (`err += 1`), `check_types` and
`check_and_assign_method_ids` run (`err |=` each), and a final early
return precedes the success hand-off. -/
def load_and_validate_aidl {σ : Type} (input_file_name : List Char)
    (env : LavEnv σ) : LavResult :=
  let err : Int := env.preErrs.foldl (fun e r => e.lor r) 0
  if err ≠ 0 then
    { err := err, phases := [.loadPreprocessed] }
  else
    match env.primary with
    | .parseError => { err := 1, phases := [.loadPreprocessed, .parsePrimary] }
    | .notAnInterface => { err := 1, phases := [.loadPreprocessed, .parsePrimary] }
    | .interfaceDoc c =>
      let err : Int :=
        if check_filename env.cwd input_file_name c.package.data c.name.data then err
        else err.lor 1
      let err : Int := env.importOutcomes.foldl (fun e o => e.lor (importErr o)) err
      if err ≠ 0 then
        { err := err,
          phases := [.loadPreprocessed, .parsePrimary, .filenameCheck, .resolveImports] }
      else
        let err : Int := if env.gatherPrimaryOk then err else err.lor 1
        let err : Int :=
          env.gatherImportOks.foldl (fun e ok => if ok then e else e.lor 1) err
        let err : Int := if env.tn.IsValidPackage c.package env.ns then err else err + 1
        let err : Int := err.lor (check_types env.tn c env.ns).err
        let err : Int := err.lor (check_and_assign_method_ids c.methods).1
        if err ≠ 0 then
          { err := err,
            phases := [.loadPreprocessed, .parsePrimary, .filenameCheck, .resolveImports,
              .gatherTypes, .validatePackage, .checkTypesPhase, .assignMethodIds] }
        else
          { err := 0,
            phases := [.loadPreprocessed, .parsePrimary, .filenameCheck, .resolveImports,
              .gatherTypes, .validatePackage, .checkTypesPhase, .assignMethodIds,
              .finished] }

/-- A concrete interface whose declared name disagrees with the demo
input path, for the C5 analysis. -/
def demoMismatchIface : AidlInterface :=
  { name := "IEcho", package := "com.x", line := 1, oneway := false, methods := [] }

/-- A concrete driver environment in which the primary file parses as
`demoMismatchIface` and the single import resolves and parses cleanly. -/
def demoLavEnvC5 : LavEnv Unit :=
  { tn := demoNamespaceOps, ns := (), preErrs := [],
    primary := .interfaceDoc demoMismatchIface,
    cwd := ("/r").data,
    importOutcomes := [.parsed true],
    gatherPrimaryOk := true, gatherImportOks := [true] }

/-- The kind of a preprocessed declaration. -/
inductive DeclKind where
  | parcelable
  | interfaceDecl
deriving DecidableEq

/-- A declaration as `preprocess_aidl` sees it after parsing one input
file (aidl.cpp lines 648-668): its kind, its dotted package text
(possibly empty), and its name. -/
structure PreprocessedDecl where
  kind : DeclKind
  package : List Char
  name : List Char
deriving DecidableEq

/-- The fully qualified name as `preprocess_aidl` prints it: the package
followed by a dot when the package is nonempty, then the name. -/
def qualifiedName (d : PreprocessedDecl) : List Char :=
  (if d.package = [] then [] else d.package ++ ['.']) ++ d.name

/-- One output line of `preprocess_aidl` (aidl.cpp lines 650-669):
`parcelable Q;` or `interface Q;` followed by the newline appended at
line 669. -/
def preprocess_line (d : PreprocessedDecl) : List Char :=
  (match d.kind with
   | .parcelable => ("parcelable ").data
   | .interfaceDecl => ("interface ").data) ++ qualifiedName d ++ (";\n").data

/-- The whitespace class used by `sscanf` (C `isspace`): space, tab,
newline, vertical tab, form feed, carriage return. -/
def sscanfWs (ch : Char) : Bool :=
  ch = ' ' || ch = '\t' || ch = '\n' || ch = '\x0b' || ch = '\x0c' || ch = '\r'

/-- The `%s` conversion of `sscanf`: skip whitespace, then split off the
maximal run of non-whitespace characters. -/
def scanToken (s : List Char) : List Char × List Char :=
  let s2 := s.dropWhile sscanfWs
  (s2.takeWhile (fun ch => !sscanfWs ch), s2.dropWhile (fun ch => !sscanfWs ch))

/-- The scan set `%[^; \r\n\t]` of aidl.cpp line 350: the maximal run of
characters outside the excluded set. -/
def scanFullname (s : List Char) : List Char :=
  s.takeWhile (fun ch => !(ch = ';' || ch = ' ' || ch = '\r' || ch = '\n' || ch = '\t'))

/-- Split at the last dot (`strrchr(fullname, '.')`, aidl.cpp lines
352-360): with a dot, the text before it is the package text and the
text after it the class name; with no dot the class name is the whole
text and no package is produced. -/
def splitAtLastDot (s : List Char) : Option (List Char) × List Char :=
  let r := s.reverse
  let cls := (r.takeWhile (fun ch => ch ≠ '.')).reverse
  match r.dropWhile (fun ch => ch ≠ '.') with
  | [] => (none, cls)
  | _ :: before => (some before.reverse, cls)

/-- The fate of one line inside `parse_preprocessed_file` (aidl.cpp
lines 344-385): skipped (empty read or `//` comment), rejected with the
`bad type in line` diagnostic, or turned into a declaration carrying a
package component list and a class name. -/
inductive PreprocessedLineResult where
  | skipped
  | badType
  | entry (kind : DeclKind) (package : List (List Char)) (classname : List Char)
deriving DecidableEq

/-- One iteration of the `parse_preprocessed_file` read loop (aidl.cpp
lines 344-385) on a line as delivered by `fgets`: skip the comment
cases, run the `sscanf` conversions, split the full name at its last
dot, `Split` the package text at dots, and dispatch on the type word. -/
def parse_preprocessed_line (line : List Char) : PreprocessedLineResult :=
  if line = [] then .skipped
  else if line.take 2 = ("//").data then .skipped
  else
    let ty := (scanToken line).1
    let rest := (scanToken line).2
    let fullname := scanFullname (rest.dropWhile sscanfWs)
    let split := splitAtLastDot fullname
    let package : List (List Char) :=
      match split.1 with
      | none => []
      | some pkgText => splitOnChar '.' pkgText
    if ty = ("parcelable").data then .entry .parcelable package split.2
    else if ty = ("interface").data then .entry .interfaceDecl package split.2
    else .badType

/-- Join components with a separator character; the inverse direction of
`splitOnChar`. -/
def joinWith (sep : Char) : List (List Char) → List Char
  | [] => []
  | [p] => p
  | p :: rest => p ++ sep :: joinWith sep rest

/-- Modelled from the spec: the fully qualified name under which a
declaration parsed from a preprocessed line is registered in the type
namespace (the registration code lives in aidl_language / the type
namespace, not under src/): the package components joined with dots,
then a dot and the class name; just the class name when the package is
empty. -/
def canonicalName (package : List (List Char)) (classname : List Char) : List Char :=
  match package with
  | [] => classname
  | _ => joinWith '.' package ++ '.' :: classname

/-- A concrete preprocessed declaration, for witnesses. -/
def demoPreDecl : PreprocessedDecl :=
  { kind := .parcelable, package := ("com.x").data, name := ("Foo").data }

/-- The state of the output file during `preprocess_aidl`'s write phase:
whether the file exists, its bytes, and whether the descriptor is still
open. -/
structure PreprocessFS where
  fileExists : Bool
  content : List Char
  fdOpen : Bool
deriving DecidableEq

/-- The write loop of `preprocess_aidl` (aidl.cpp lines 687-698).  The
oracle gives the byte count the `write` call accepts for the i-th line,
capped by the line length since `write` never writes more than asked.
On a short write the C++ prints a diagnostic, closes the descriptor,
unlinks the output file and returns 1; after a complete loop it closes
the descriptor and returns 0 (lines 700-701). -/
def preprocessWriteLoop (oracle : Nat → Nat) :
    List (List Char) → Nat → PreprocessFS → Int × PreprocessFS
  | [], _, fs => (0, { fs with fdOpen := false })
  | s :: rest, i, fs =>
    let written := min (oracle i) s.length
    let fs2 : PreprocessFS := { fs with content := fs.content ++ s.take written }
    if written ≠ s.length then
      (1, { fs2 with
        fdOpen := false,
        fileExists := false,
        content := [] })
    else
      preprocessWriteLoop oracle rest (i + 1) fs2

/-- The write phase of `preprocess_aidl` (aidl.cpp lines 674-701): the
`open(.., O_RDWR|O_CREAT|O_TRUNC, ..)` either fails (diagnostic and
return 1, filesystem untouched) or truncates the output to an empty
open file; then the write loop runs. -/
def preprocess_write (lines : List (List Char)) (oracle : Nat → Nat)
    (openOk : Bool) (fs0 : PreprocessFS) : Int × PreprocessFS :=
  if openOk then
    preprocessWriteLoop oracle lines 0
      { fileExists := true, content := [], fdOpen := true }
  else
    (1, fs0)

/-- Modelled from the spec: the options object of the C++ compile task
(`CppOptions`, declared in code not under src/), restricted to the
accessors `compile_aidl_to_cpp` reads. -/
structure CppOptions where
  importPaths : List String
  inputFileName : String
deriving DecidableEq

/-- Modelled from the spec: accessor used at aidl.cpp line 582. -/
def CppOptions.ImportPaths (o : CppOptions) : List String := o.importPaths

/-- Modelled from the spec: accessor used at aidl.cpp line 583. -/
def CppOptions.InputFileName (o : CppOptions) : String := o.inputFileName

/-- `JavaOptions` (options.h lines 31-61), restricted to the fields the
compile task reads when calling `load_and_validate_aidl`. -/
structure JavaOptions where
  import_paths_ : List String
  preprocessed_files_ : List String
  input_file_name_ : String
  output_file_name_ : String
deriving DecidableEq

/-- The argument triple a compile task hands to `load_and_validate_aidl`
(its first three parameters). -/
structure LavCallArgs where
  preprocessed_files : List String
  import_paths : List String
  input_file_name : String
deriving DecidableEq

/-- The `load_and_validate_aidl` call made by `compile_aidl_to_cpp`
(aidl.cpp lines 580-587): an empty preprocessed-files vector
(`std::vector<std::string>{}`, commented "no preprocessed files"), the
options' import paths and input file name. -/
def compile_aidl_to_cpp_lavCall (options : CppOptions) : LavCallArgs :=
  { preprocessed_files := [],
    import_paths := options.ImportPaths,
    input_file_name := options.InputFileName }

/-- The `load_and_validate_aidl` call made by `compile_aidl_to_java`
(aidl.cpp lines 602-609): the options' preprocessed files, import paths
and input file name. -/
def compile_aidl_to_java_lavCall (options : JavaOptions) : LavCallArgs :=
  { preprocessed_files := options.preprocessed_files_,
    import_paths := options.import_paths_,
    input_file_name := options.input_file_name_ }

theorem camiScan_implicit_of_all (items : List AidlMethod) (used : List Int)
    (h : ∀ m ∈ items, m.hasId_ = false) :
    camiScan items used false true = .ok true := by
  induction items generalizing used with
  | nil => rfl
  | cons m rest ih =>
    have hm : m.hasId_ = false := h m (by simp)
    simp only [camiScan, AidlMethod.HasId, hm, Bool.false_eq_true, if_false,
      Bool.false_and, Bool.and_self]
    exact ih used (fun x hx => h x (List.mem_cons_of_mem _ hx))

theorem camiScan_implicit_inv (items : List AidlMethod) (used : List Int) (b : Bool)
    (h : camiScan items used false true = .ok b) :
    b = true ∧ ∀ m ∈ items, m.hasId_ = false := by
  induction items generalizing used with
  | nil =>
    simp only [camiScan, Except.ok.injEq] at h
    exact ⟨h.symm, by simp⟩
  | cons m rest ih =>
    by_cases hm : m.hasId_ = true
    · exfalso
      simp only [camiScan, AidlMethod.HasId, hm, if_true, Bool.true_and, if_true] at h
      split at h
      · exact Except.noConfusion h
      · split at h
        · exact Except.noConfusion h
        · simp at h
    · have hm2 : m.hasId_ = false := by
        cases hcase : m.hasId_
        · rfl
        · exact absurd hcase hm
      simp only [camiScan, AidlMethod.HasId, hm2, Bool.false_eq_true, if_false,
        Bool.false_and, Bool.and_self] at h
      obtain ⟨hb, hall⟩ := ih used h
      refine ⟨hb, ?_⟩
      intro x hx
      rcases List.mem_cons.mp hx with hx | hx
      · exact hx ▸ hm2
      · exact hall x hx

theorem camiScan_explicit_iff (items : List AidlMethod) (used : List Int) (b : Bool) :
    camiScan items used true false = .ok b ↔
      (b = false ∧ explicitChainOk items used = true) := by
  induction items generalizing used with
  | nil =>
    simp [camiScan, explicitChainOk, eq_comm]
  | cons m rest ih =>
    by_cases hm : m.hasId_ = true
    · by_cases hc : m.id_ ∈ used
      · simp [camiScan, AidlMethod.HasId, AidlMethod.GetId, explicitChainOk, hm, hc]
      · by_cases hb2 : m.id_ < kMinUserSetMethodId ∨ kMaxUserSetMethodId < m.id_
        · simp only [camiScan, AidlMethod.HasId, AidlMethod.GetId, explicitChainOk, hm, if_true]
          simp [hc, hb2, Int.not_lt, not_or]
          intro _ h1 h2
          exact absurd hb2 (by omega)
        · simp only [camiScan, AidlMethod.HasId, AidlMethod.GetId, explicitChainOk, hm, if_true]
          simp [hc, hb2, Int.not_lt, not_or, ih]
          intro _ _
          omega
    · have hm2 : m.hasId_ = false := by
        cases hcase : m.hasId_
        · rfl
        · exact absurd hcase hm
      simp [camiScan, AidlMethod.HasId, explicitChainOk, hm2]

theorem explicitChainOk_spec (items : List AidlMethod) (used : List Int) :
    explicitChainOk items used = true ↔
      ((∀ m ∈ items,
          m.hasId_ = true ∧ kMinUserSetMethodId ≤ m.id_ ∧
            m.id_ ≤ kMaxUserSetMethodId ∧ m.id_ ∉ used) ∧
        (items.map (fun m => m.id_)).Nodup) := by
  induction items generalizing used with
  | nil => simp [explicitChainOk]
  | cons m rest ih =>
    simp [explicitChainOk, ih, List.nodup_cons, List.mem_map, Int.not_lt, not_or]
    constructor
    · rintro ⟨⟨⟨hid, hfresh⟩, hmin, hmax⟩, hall, hnd⟩
      refine ⟨⟨⟨hid, hmin, hmax, hfresh⟩, ?_⟩, ?_, hnd⟩
      · intro x hx
        obtain ⟨h1, h2, h3, _, h5⟩ := hall x hx
        exact ⟨h1, h2, h3, h5⟩
      · intro x hx
        exact (hall x hx).2.2.2.1
    · rintro ⟨⟨⟨hid, hmin, hmax, hfresh⟩, hall⟩, hne, hnd⟩
      refine ⟨⟨⟨hid, hfresh⟩, hmin, hmax⟩, ?_, hnd⟩
      intro x hx
      obtain ⟨h1, h2, h3, h4⟩ := hall x hx
      exact ⟨h1, h2, h3, hne x hx, h4⟩

theorem explicitChain_allExplicitValid (items : List AidlMethod) :
    explicitChainOk items [] = true ↔ AllExplicitValid items := by
  rw [explicitChainOk_spec]
  unfold AllExplicitValid
  constructor
  · rintro ⟨hall, hnd⟩
    exact ⟨fun m hm => ⟨(hall m hm).1, (hall m hm).2.1, (hall m hm).2.2.1⟩, hnd⟩
  · rintro ⟨hall, hnd⟩
    exact ⟨fun m hm => ⟨(hall m hm).1, (hall m hm).2.1, (hall m hm).2.2, by simp⟩, hnd⟩

theorem camiScan_start_iff (items : List AidlMethod) (b : Bool) :
    camiScan items [] false false = .ok b ↔
      ((explicitChainOk items [] = true ∧ b = false) ∨
        (AllImplicit items ∧ b = decide (items ≠ []))) := by
  cases items with
  | nil =>
    constructor
    · intro h
      injection h with h2
      exact Or.inl ⟨rfl, h2.symm⟩
    · rintro (⟨_, hb⟩ | ⟨_, hb⟩)
      · rw [hb]
        rfl
      · rw [hb]
        rfl
  | cons m rest =>
    by_cases hm : m.hasId_ = true
    · have hnotimp : ¬ AllImplicit (m :: rest) := by
        intro h
        have := h m (by simp)
        rw [hm] at this
        exact Bool.noConfusion this
      by_cases hb2 : m.id_ < kMinUserSetMethodId ∨ kMaxUserSetMethodId < m.id_
      · have hchainf : explicitChainOk (m :: rest) [] = false := by
          rcases hb2 with hb2 | hb2 <;> simp [explicitChainOk, hb2]
        have hstep : camiScan (m :: rest) [] false false =
            .error (.outOfBoundsId m.line m.id_ m.name) := by
          simp only [camiScan, AidlMethod.HasId, AidlMethod.GetId, hm, if_true]
          rw [if_neg (by simp)]
          rw [if_pos (by simp only [decide_eq_true_eq, Bool.or_eq_true]; exact hb2)]
        rw [hstep]
        constructor
        · intro hsc
          exact Except.noConfusion hsc
        · rintro (⟨hchain, _⟩ | ⟨himp, _⟩)
          · rw [hchainf] at hchain
            exact Bool.noConfusion hchain
          · exact absurd himp hnotimp
      · have hpos := not_or.mp hb2
        have hchain1 : explicitChainOk (m :: rest) [] = explicitChainOk rest [m.id_] := by
          simp [explicitChainOk, hm, hpos.1, hpos.2]
        have hstep : camiScan (m :: rest) [] false false = camiScan rest [m.id_] true false := by
          simp only [camiScan, AidlMethod.HasId, AidlMethod.GetId, hm, if_true]
          rw [if_neg (by simp)]
          rw [if_neg (by simp only [decide_eq_true_eq, Bool.or_eq_true]; exact hb2)]
          rw [if_neg (by simp)]
        rw [hstep, hchain1, camiScan_explicit_iff]
        constructor
        · rintro ⟨hb, hchain⟩
          exact Or.inl ⟨hchain, hb⟩
        · rintro (⟨hchain, hb⟩ | ⟨himp, _⟩)
          · exact ⟨hb, hchain⟩
          · exact absurd himp hnotimp
    · have hm2 : m.hasId_ = false := by
        cases hcase : m.hasId_
        · rfl
        · exact absurd hcase hm
      have hchainf : explicitChainOk (m :: rest) [] = false := by
        simp [explicitChainOk, hm2]
      simp only [camiScan, AidlMethod.HasId, hm2, Bool.false_eq_true, if_false,
        Bool.false_and, Bool.and_self]
      rw [hchainf]
      constructor
      · intro h
        obtain ⟨hb, hall⟩ := camiScan_implicit_inv rest [] b h
        refine Or.inr ⟨?_, by simp [hb]⟩
        intro x hx
        rcases List.mem_cons.mp hx with hx | hx
        · exact hx ▸ hm2
        · exact hall x hx
      · rintro (⟨hfalse, _⟩ | ⟨hall, hb⟩)
        · exact Bool.noConfusion hfalse
        · have : b = true := by simp at hb; exact hb
          rw [this]
          exact camiScan_implicit_of_all rest []
            (fun x hx => hall x (List.mem_cons_of_mem _ hx))

theorem check_and_assign_eq_of_error (items : List AidlMethod) (d : MethodIdDiag)
    (h : camiScan items [] false false = .error d) :
    check_and_assign_method_ids items = (1, items, [d]) := by
  unfold check_and_assign_method_ids
  rw [h]

theorem check_and_assign_eq_of_ok (items : List AidlMethod) (b : Bool)
    (h : camiScan items [] false false = .ok b) :
    check_and_assign_method_ids items =
      if b then (0, assignSeqIds items 0, []) else (0, items, []) := by
  unfold check_and_assign_method_ids
  rw [h]

theorem assignSeqIds_getElem (items : List AidlMethod) (n : Int) (i : Nat) :
    (assignSeqIds items n)[i]? = (items[i]?).map (fun m => m.SetId (n + (i : Int))) := by
  induction items generalizing n i with
  | nil => simp [assignSeqIds]
  | cons m rest ih =>
    cases i with
    | zero => simp [assignSeqIds]
    | succ j =>
      simp only [assignSeqIds, List.getElem?_cons_succ, ih]
      have hfun : (fun x : AidlMethod => x.SetId (n + 1 + (j : Int))) =
          (fun x : AidlMethod => x.SetId (n + ((j + 1 : Nat) : Int))) := by
        funext x
        congr 1
        push_cast
        ring
      rw [hfun]

/-- C1: `check_and_assign_method_ids` returns zero exactly when either no
method has an explicit id, or every method has an explicit, in-bounds,
pairwise-distinct id; on every nonzero return a diagnostic was printed. -/
theorem check_and_assign_method_ids_zero_iff (items : List AidlMethod) :
    ((check_and_assign_method_ids items).1 = 0 ↔
      (AllImplicit items ∨ AllExplicitValid items)) ∧
    ((check_and_assign_method_ids items).1 ≠ 0 →
      (check_and_assign_method_ids items).2.2 ≠ []) := by
  cases hscan : camiScan items [] false false with
  | error d =>
    rw [check_and_assign_eq_of_error items d hscan]
    constructor
    · constructor
      · intro h
        exact absurd h (by norm_num)
      · rintro (himp | hexp)
        · have := (camiScan_start_iff items (decide (items ≠ []))).mpr (Or.inr ⟨himp, rfl⟩)
          rw [hscan] at this
          exact Except.noConfusion this
        · have := (camiScan_start_iff items false).mpr
            (Or.inl ⟨(explicitChain_allExplicitValid items).mpr hexp, rfl⟩)
          rw [hscan] at this
          exact Except.noConfusion this
    · intro _
      simp
  | ok b =>
    rw [check_and_assign_eq_of_ok items b hscan]
    have hdis := (camiScan_start_iff items b).mp hscan
    have hspec : AllImplicit items ∨ AllExplicitValid items := by
      rcases hdis with ⟨hchain, _⟩ | ⟨himp, _⟩
      · exact Or.inr ((explicitChain_allExplicitValid items).mp hchain)
      · exact Or.inl himp
    cases b
    · exact ⟨iff_of_true rfl hspec, fun h => absurd rfl h⟩
    · exact ⟨iff_of_true rfl hspec, fun h => absurd rfl h⟩

/-- C1 witness: evaluation of the theorem on a concrete method list. -/
theorem check_and_assign_method_ids_zero_iff_witness :
    (((check_and_assign_method_ids [demoEcho, demoAdd]).1 = 0 ↔
      (AllImplicit [demoEcho, demoAdd] ∨ AllExplicitValid [demoEcho, demoAdd])) ∧
     ((check_and_assign_method_ids [demoEcho, demoAdd]).1 ≠ 0 →
      (check_and_assign_method_ids [demoEcho, demoAdd]).2.2 ≠ [])) :=
  check_and_assign_method_ids_zero_iff _

/-- C2: when no method carries an explicit id, a successful run assigns
ids 0, 1, ..., n-1 to the methods in declaration order (the i-th result
method is the i-th input method with its id set to i). -/
theorem check_and_assign_method_ids_sequential (items : List AidlMethod)
    (h : AllImplicit items) :
    (check_and_assign_method_ids items).1 = 0 ∧
    ∀ i : Nat, (check_and_assign_method_ids items).2.1[i]? =
      (items[i]?).map (fun m => m.SetId ((i : Nat) : Int)) := by
  have hscan := (camiScan_start_iff items (decide (items ≠ []))).mpr (Or.inr ⟨h, rfl⟩)
  rw [check_and_assign_eq_of_ok items _ hscan]
  by_cases hne : items = []
  · subst hne
    simp
  · rw [if_pos (decide_eq_true hne)]
    refine ⟨rfl, ?_⟩
    intro i
    show (assignSeqIds items 0)[i]? = _
    rw [assignSeqIds_getElem items 0 i]
    simp

/-- C2 witness: evaluation on a concrete two-method interface. -/
theorem check_and_assign_method_ids_sequential_witness :
    AllImplicit [demoEcho, demoAdd] ∧
    ((check_and_assign_method_ids [demoEcho, demoAdd]).1 = 0 ∧
     ∀ i : Nat, (check_and_assign_method_ids [demoEcho, demoAdd]).2.1[i]? =
      ([demoEcho, demoAdd][i]?).map (fun m => m.SetId ((i : Nat) : Int))) :=
  ⟨by decide, check_and_assign_method_ids_sequential _ (by decide)⟩

/-- C9: `check_and_assign_method_ids` leaves the method list untouched on
every nonzero return, and also whenever at least one method carries an
explicit id. -/
theorem check_and_assign_method_ids_frame (items : List AidlMethod) :
    ((check_and_assign_method_ids items).1 ≠ 0 →
      (check_and_assign_method_ids items).2.1 = items) ∧
    ((∃ m ∈ items, m.hasId_ = true) →
      (check_and_assign_method_ids items).2.1 = items) := by
  cases hscan : camiScan items [] false false with
  | error d =>
    rw [check_and_assign_eq_of_error items d hscan]
    exact ⟨fun _ => rfl, fun _ => rfl⟩
  | ok b =>
    rw [check_and_assign_eq_of_ok items b hscan]
    have hdis := (camiScan_start_iff items b).mp hscan
    cases b
    · exact ⟨fun h => absurd rfl h, fun _ => rfl⟩
    · constructor
      · intro h
        exact absurd rfl h
      · rintro ⟨m, hm, hid⟩
        exfalso
        rcases hdis with ⟨_, hbf⟩ | ⟨himp, _⟩
        · exact Bool.noConfusion hbf
        · have := himp m hm
          rw [hid] at this
          exact Bool.noConfusion this

theorem ctArgs_err_zero {σ : Type} (tn : TypeNamespaceOps σ) (ow : Bool) (m : AidlMethod)
    (idx : Int) (args : List AidlArgument) :
    ∀ s : CheckTypesState σ, (ctArgs tn ow m idx args s).err = 0 →
      s.err = 0 ∧ ∀ a ∈ args, (ow && a.IsOut) = false := by
  induction args with
  | nil =>
    intro s h
    exact ⟨h, by simp⟩
  | cons a rest ih =>
    intro s h
    simp only [ctArgs] at h
    by_cases hob : (ow && a.IsOut) = true
    · rw [if_pos hob] at h
      obtain ⟨h2, _⟩ := ih _ h
      simp at h2
    · rw [if_neg hob] at h
      obtain ⟨h2, hall⟩ := ih _ h
      simp only [] at h2
      constructor
      · by_cases hok : ((tn.MaybeAddContainerType a.argType.name s.ns).1 &&
            tn.IsValidArg a idx (tn.MaybeAddContainerType a.argType.name s.ns).2) = true
        · rw [if_pos hok] at h2
          exact h2
        · rw [if_neg hok] at h2
          exact absurd h2 (by norm_num)
      · intro x hx
        rcases List.mem_cons.mp hx with hx | hx
        · subst hx
          cases hcase : (ow && x.IsOut)
          · rfl
          · exact absurd hcase hob
        · exact hall x hx

theorem ctRetStep_err_zero {σ : Type} (tn : TypeNamespaceOps σ) (c : AidlInterface)
    (m : AidlMethod) (s : CheckTypesState σ)
    (h : (ctRetStep tn c m s).err = 0) :
    s.err = 0 ∧ ((m.oneway || c.oneway) && !(m.retType.name == "void")) = false := by
  unfold ctRetStep at h
  by_cases hbad : ((m.oneway || c.oneway) && !(m.retType.name == "void")) = true
  · rw [if_pos hbad] at h
    simp at h
  · rw [if_neg hbad] at h
    simp only [] at h
    constructor
    · by_cases hok : ((tn.MaybeAddContainerType m.retType.name s.ns).1 &&
          tn.IsValidReturnType m.retType (tn.MaybeAddContainerType m.retType.name s.ns).2) = true
      · rw [if_pos hok] at h
        exact h
      · rw [if_neg hok] at h
        exact absurd h (by norm_num)
    · cases hcase : ((m.oneway || c.oneway) && !(m.retType.name == "void"))
      · rfl
      · exact absurd hcase hbad

theorem ctDupStep_err_zero {σ : Type} (m : AidlMethod) (s : CheckTypesState σ)
    (h : (ctDupStep m s).err = 0) : s.err = 0 := by
  unfold ctDupStep at h
  split at h
  · exact h
  · simp at h

theorem ctMethod_err_zero {σ : Type} (tn : TypeNamespaceOps σ) (c : AidlInterface)
    (m : AidlMethod) (s : CheckTypesState σ)
    (h : (ctMethod tn c m s).err = 0) :
    s.err = 0 ∧ ((m.oneway || c.oneway) && !(m.retType.name == "void")) = false ∧
      ∀ a ∈ m.args, ((m.oneway || c.oneway) && a.IsOut) = false := by
  unfold ctMethod at h
  have h3 := ctDupStep_err_zero _ _ h
  obtain ⟨h2, hargs⟩ := ctArgs_err_zero tn _ m 1 m.args _ h3
  obtain ⟨h1, hbad⟩ := ctRetStep_err_zero tn c m s h2
  exact ⟨h1, hbad, hargs⟩

theorem ctLoop_err_zero {σ : Type} (tn : TypeNamespaceOps σ) (c : AidlInterface)
    (ms : List AidlMethod) :
    ∀ s : CheckTypesState σ, (ctLoop tn c ms s).err = 0 → s.err = 0 ∧
      ∀ m ∈ ms, ((m.oneway || c.oneway) && !(m.retType.name == "void")) = false ∧
        ∀ a ∈ m.args, ((m.oneway || c.oneway) && a.IsOut) = false := by
  induction ms with
  | nil =>
    intro s h
    exact ⟨h, by simp⟩
  | cons m rest ih =>
    intro s h
    simp only [ctLoop] at h
    obtain ⟨h2, hall⟩ := ih _ h
    obtain ⟨h1, hbad, hargs⟩ := ctMethod_err_zero tn c m s h2
    refine ⟨h1, ?_⟩
    intro x hx
    rcases List.mem_cons.mp hx with hx | hx
    · subst hx
      exact ⟨hbad, hargs⟩
    · exact hall x hx

/-- C3: every method that is effectively oneway (interface-level or
method-level oneway flag) in an interface that `check_types` accepts
with a zero error flag returns `void` and has no out or inout argument. -/
theorem check_types_oneway_closure {σ : Type} (tn : TypeNamespaceOps σ)
    (c : AidlInterface) (ns0 : σ)
    (h : (check_types tn c ns0).err = 0) :
    ∀ m ∈ c.methods, (m.oneway || c.oneway) = true →
      m.retType.name = "void" ∧ ∀ a ∈ m.args, a.IsOut = false := by
  obtain ⟨_, hall⟩ := ctLoop_err_zero tn c c.methods _ h
  intro m hm how
  obtain ⟨hbad, hargs⟩ := hall m hm
  constructor
  · rw [how] at hbad
    simpa using hbad
  · intro a ha
    have := hargs a ha
    rw [how] at this
    simpa using this

/-- C3 witness: a concrete oneway method with a void return and one in
argument passes `check_types` and the closure holds for it. -/
theorem check_types_oneway_closure_witness :
    (check_types demoNamespaceOps demoOnewayIface ()).err = 0 ∧
    (∀ m ∈ demoOnewayIface.methods,
      (m.oneway || demoOnewayIface.oneway) = true →
        m.retType.name = "void" ∧ ∀ a ∈ m.args, a.IsOut = false) :=
  ⟨by decide, check_types_oneway_closure demoNamespaceOps demoOnewayIface () (by decide)⟩

theorem ctArgs_checks {σ : Type} (tn : TypeNamespaceOps σ) (ow : Bool) (m : AidlMethod)
    (idx : Int) (args : List AidlArgument) :
    ∀ s : CheckTypesState σ, ∃ cs : List Bool,
      (ctArgs tn ow m idx args s).checks = s.checks ++ cs ∧
      cs.length = 2 * args.length ∧
      ((ctArgs tn ow m idx args s).err = 0 ↔ s.err = 0 ∧ ∀ b ∈ cs, b = true) := by
  induction args with
  | nil =>
    intro s
    exact ⟨[], by simp [ctArgs], by simp, by simp [ctArgs]⟩
  | cons a rest ih =>
    intro s
    simp only [ctArgs]
    generalize ((tn.MaybeAddContainerType a.argType.name s.ns).1 &&
      tn.IsValidArg a idx (tn.MaybeAddContainerType a.argType.name s.ns).2) = ak
    by_cases hob : (ow && a.IsOut) = true
    · rw [if_pos hob]
      obtain ⟨cs, hc, hl, he⟩ := ih _
      refine ⟨ak :: false :: cs, ?_, ?_, ?_⟩
      · rw [hc]
        simp
      · simp only [List.length_cons, List.length_cons, hl]
        omega
      · rw [he]
        simp
    · rw [if_neg hob]
      obtain ⟨cs, hc, hl, he⟩ := ih _
      refine ⟨ak :: true :: cs, ?_, ?_, ?_⟩
      · rw [hc]
        simp
      · simp only [List.length_cons, List.length_cons, hl]
        omega
      · rw [he]
        cases ak <;> simp

theorem ctRetStep_checks {σ : Type} (tn : TypeNamespaceOps σ) (c : AidlInterface)
    (m : AidlMethod) :
    ∀ s : CheckTypesState σ, ∃ cs : List Bool,
      (ctRetStep tn c m s).checks = s.checks ++ cs ∧
      cs.length = 2 ∧
      ((ctRetStep tn c m s).err = 0 ↔ s.err = 0 ∧ ∀ b ∈ cs, b = true) := by
  intro s
  simp only [ctRetStep]
  generalize ((tn.MaybeAddContainerType m.retType.name s.ns).1 &&
    tn.IsValidReturnType m.retType (tn.MaybeAddContainerType m.retType.name s.ns).2) = rk
  by_cases hbad : ((m.oneway || c.oneway) && !(m.retType.name == "void")) = true
  · rw [if_pos hbad]
    exact ⟨[rk, false], by simp, rfl, by simp⟩
  · rw [if_neg hbad]
    refine ⟨[rk, true], by simp, rfl, ?_⟩
    cases rk <;> simp
theorem ctDupStep_checks {σ : Type} (m : AidlMethod) :
    ∀ s : CheckTypesState σ, ∃ cs : List Bool,
      (ctDupStep m s).checks = s.checks ++ cs ∧
      cs.length = 1 ∧
      ((ctDupStep m s).err = 0 ↔ s.err = 0 ∧ ∀ b ∈ cs, b = true) := by
  intro s
  unfold ctDupStep
  cases hlk : s.methodNames.lookup m.name
  · exact ⟨[true], by simp, rfl, by simp⟩
  · exact ⟨[false], by simp, rfl, by simp⟩

theorem ctMethod_checks {σ : Type} (tn : TypeNamespaceOps σ) (c : AidlInterface)
    (m : AidlMethod) :
    ∀ s : CheckTypesState σ, ∃ cs : List Bool,
      (ctMethod tn c m s).checks = s.checks ++ cs ∧
      cs.length = 3 + 2 * m.args.length ∧
      ((ctMethod tn c m s).err = 0 ↔ s.err = 0 ∧ ∀ b ∈ cs, b = true) := by
  intro s
  obtain ⟨cs1, h1c, h1l, h1e⟩ := ctRetStep_checks tn c m s
  obtain ⟨cs2, h2c, h2l, h2e⟩ :=
    ctArgs_checks tn (m.oneway || c.oneway) m 1 m.args (ctRetStep tn c m s)
  obtain ⟨cs3, h3c, h3l, h3e⟩ :=
    ctDupStep_checks m (ctArgs tn (m.oneway || c.oneway) m 1 m.args (ctRetStep tn c m s))
  refine ⟨cs1 ++ cs2 ++ cs3, ?_, ?_, ?_⟩
  · unfold ctMethod
    rw [h3c, h2c, h1c]
    simp
  · simp only [List.length_append, h1l, h2l, h3l]
    omega
  · unfold ctMethod
    rw [h3e, h2e, h1e]
    constructor
    · rintro ⟨⟨⟨hs, ha1⟩, ha2⟩, ha3⟩
      refine ⟨hs, ?_⟩
      intro b hb
      rcases List.mem_append.mp hb with hb | hb
      · rcases List.mem_append.mp hb with hb | hb
        · exact ha1 b hb
        · exact ha2 b hb
      · exact ha3 b hb
    · rintro ⟨hs, hall⟩
      refine ⟨⟨⟨hs, ?_⟩, ?_⟩, ?_⟩
      · intro b hb
        exact hall b (List.mem_append.mpr (Or.inl (List.mem_append.mpr (Or.inl hb))))
      · intro b hb
        exact hall b (List.mem_append.mpr (Or.inl (List.mem_append.mpr (Or.inr hb))))
      · intro b hb
        exact hall b (List.mem_append.mpr (Or.inr hb))

theorem ctLoop_checks {σ : Type} (tn : TypeNamespaceOps σ) (c : AidlInterface)
    (ms : List AidlMethod) :
    ∀ s : CheckTypesState σ, ∃ cs : List Bool,
      (ctLoop tn c ms s).checks = s.checks ++ cs ∧
      cs.length = (ms.map (fun m => 3 + 2 * m.args.length)).sum ∧
      ((ctLoop tn c ms s).err = 0 ↔ s.err = 0 ∧ ∀ b ∈ cs, b = true) := by
  induction ms with
  | nil =>
    intro s
    exact ⟨[], by simp [ctLoop], by simp, by simp [ctLoop]⟩
  | cons m rest ih =>
    intro s
    simp only [ctLoop]
    obtain ⟨cs1, h1c, h1l, h1e⟩ := ctMethod_checks tn c m s
    obtain ⟨cs2, h2c, h2l, h2e⟩ := ih (ctMethod tn c m s)
    refine ⟨cs1 ++ cs2, ?_, ?_, ?_⟩
    · rw [h2c, h1c]
      simp
    · simp only [List.length_append, h1l, h2l, List.map_cons, List.sum_cons]
    · rw [h2e, h1e]
      constructor
      · rintro ⟨⟨hs, ha1⟩, ha2⟩
        refine ⟨hs, ?_⟩
        intro b hb
        rcases List.mem_append.mp hb with hb | hb
        · exact ha1 b hb
        · exact ha2 b hb
      · rintro ⟨hs, hall⟩
        refine ⟨⟨hs, ?_⟩, ?_⟩
        · intro b hb
          exact hall b (List.mem_append.mpr (Or.inl hb))
        · intro b hb
          exact hall b (List.mem_append.mpr (Or.inr hb))

/-- C6: `check_types` never short-circuits — its check trace records one
outcome for every check of every method (return-type validity, oneway
return, per-argument validity and oneway directionality, duplicate
name), so the trace length is determined by the full method and argument
lists alone — and the returned error flag is zero exactly when every
recorded check passed. -/
theorem check_types_no_short_circuit {σ : Type} (tn : TypeNamespaceOps σ)
    (c : AidlInterface) (ns0 : σ) :
    ((check_types tn c ns0).err = 0 ↔
      ∀ b ∈ (check_types tn c ns0).checks, b = true) ∧
    (check_types tn c ns0).checks.length =
      (c.methods.map (fun m => 3 + 2 * m.args.length)).sum := by
  obtain ⟨cs, hc, hl, he⟩ := ctLoop_checks tn c c.methods
    { err := 0, ns := ns0, methodNames := [], diags := [], checks := [] }
  unfold check_types
  rw [hc] at *
  constructor
  · rw [he]
    simp
  · simpa using hl

/-- C6 witness: evaluation of the theorem on a concrete interface. -/
theorem check_types_no_short_circuit_witness :
    ((check_types demoNamespaceOps demoOnewayIface ()).err = 0 ↔
      ∀ b ∈ (check_types demoNamespaceOps demoOnewayIface ()).checks, b = true) ∧
    (check_types demoNamespaceOps demoOnewayIface ()).checks.length =
      (demoOnewayIface.methods.map (fun m => 3 + 2 * m.args.length)).sum :=
  check_types_no_short_circuit demoNamespaceOps demoOnewayIface ()

/-- C9 witness: evaluation on a concrete mixed-id method list. -/
theorem check_and_assign_method_ids_frame_witness :
    ((check_and_assign_method_ids [demoExplicit3, demoAdd]).1 ≠ 0 →
      (check_and_assign_method_ids [demoExplicit3, demoAdd]).2.1 =
        [demoExplicit3, demoAdd]) ∧
    ((∃ m ∈ [demoExplicit3, demoAdd], m.hasId_ = true) →
      (check_and_assign_method_ids [demoExplicit3, demoAdd]).2.1 =
        [demoExplicit3, demoAdd]) :=
  check_and_assign_method_ids_frame _

/-- C4 counterexample: `check_filename` accepts the absolute path
`/ax/Foo.aidl` for package `x` and name `Foo`, because the expected
string `x/Foo.aidl` is a character-level suffix of the path, even though
the match is not aligned on a path-component boundary; the claim's
trailing-components reading rejects this input. -/
theorem check_filename_component_alignment_cex :
    check_filename ("/cwd").data ("/ax/Foo.aidl").data ("x").data ("Foo").data = true ∧
    check_filename_components ("/cwd").data ("/ax/Foo.aidl").data
      ("x").data ("Foo").data = false := by
  decide

/-- C4 amended: `check_filename` succeeds exactly when the expected
string `package_as_path/name.aidl` (name truncated at its first dot) is
a character-level suffix of the absolutized input path; alignment on a
path-component boundary is not required. -/
theorem check_filename_eq_suffix (cwd filename package name : List Char) :
    check_filename cwd filename package name = true ↔
      expectedPath package name <:+ absolutize cwd filename := by
  simp only [check_filename]
  by_cases hle : (expectedPath package name).length ≤ (absolutize cwd filename).length
  · rw [if_pos hle]
    simp only [decide_eq_true_eq]
    constructor
    · intro h
      have hsplit := List.take_append_drop
        ((absolutize cwd filename).length - (expectedPath package name).length)
        (absolutize cwd filename)
      rw [h] at hsplit
      exact ⟨_, hsplit⟩
    · rintro ⟨t, ht⟩
      rw [← ht]
      have hlen : (t ++ expectedPath package name).length -
          (expectedPath package name).length = t.length := by
        simp
      rw [hlen, List.drop_left]
  · rw [if_neg hle]
    constructor
    · intro h
      exact Bool.noConfusion h
    · intro hsuf
      exact absurd hsuf.length_le hle

/-- C4 witness: evaluation of the amended theorem on a well-placed
interface file. -/
theorem check_filename_eq_suffix_witness :
    check_filename ("/r").data ("com/x/IEcho.aidl").data ("com.x").data ("IEcho").data = true ↔
      expectedPath ("com.x").data ("IEcho").data <:+
        absolutize ("/r").data ("com/x/IEcho.aidl").data :=
  check_filename_eq_suffix _ _ _ _

theorem foldl_lor_zeros (l : List Int) (h : ∀ r ∈ l, r = 0) :
    l.foldl (fun (e : Int) r => e.lor r) 0 = 0 := by
  induction l with
  | nil => rfl
  | cons a rest ih =>
    have ha : a = 0 := h a (by simp)
    subst ha
    show rest.foldl (fun (e : Int) r => e.lor r) (Int.lor 0 0) = 0
    rw [show Int.lor 0 0 = 0 from rfl]
    exact ih (fun r hr => h r (List.mem_cons_of_mem _ hr))

theorem foldl_lor_imports_one (l : List ImportOutcome) (h : ∀ o ∈ l, importErr o = 0) :
    l.foldl (fun (e : Int) o => e.lor (importErr o)) 1 = 1 := by
  induction l with
  | nil => rfl
  | cons a rest ih =>
    have ha : importErr a = 0 := h a (by simp)
    show rest.foldl (fun (e : Int) o => e.lor (importErr o)) (Int.lor 1 (importErr a)) = 1
    rw [ha, show Int.lor 1 0 = 1 from rfl]
    exact ih (fun o ho => h o (List.mem_cons_of_mem _ ho))

/-- C5 amended: when the primary input parses as an interface but
`check_filename` fails, even with every preprocessed file clean and
every import resolving and parsing successfully, `load_and_validate_aidl`
returns a nonzero error immediately after the import loop (the early
return of aidl.cpp lines 532-534): package validation, `check_types`
and method-id checking are not performed. -/
theorem load_and_validate_returns_after_imports {σ : Type} (env : LavEnv σ)
    (input_file_name : List Char) (c : AidlInterface)
    (hpre : ∀ r ∈ env.preErrs, r = 0)
    (hprim : env.primary = .interfaceDoc c)
    (hfn : check_filename env.cwd input_file_name c.package.data c.name.data = false)
    (himp : ∀ o ∈ env.importOutcomes, importErr o = 0) :
    (load_and_validate_aidl input_file_name env).err ≠ 0 ∧
    (load_and_validate_aidl input_file_name env).phases =
      [.loadPreprocessed, .parsePrimary, .filenameCheck, .resolveImports] := by
  have hfold := foldl_lor_zeros env.preErrs hpre
  have himps : env.importOutcomes.foldl (fun (e : Int) o => e.lor (importErr o)) (Int.lor 0 1) = 1 := by
    rw [show Int.lor 0 1 = 1 from rfl]
    exact foldl_lor_imports_one env.importOutcomes himp
  have himps2 : env.importOutcomes.foldl (fun (e : Int) o => e.lor (importErr o)) 1 = 1 :=
    foldl_lor_imports_one env.importOutcomes himp
  simp only [load_and_validate_aidl, hfold, hprim, hfn]
  simp [himps, himps2]

/-- C5 witness: evaluation of the amended theorem on the concrete
environment `demoLavEnvC5`. -/
theorem load_and_validate_returns_after_imports_witness :
    (load_and_validate_aidl ("wrong/Path.aidl").data demoLavEnvC5).err ≠ 0 ∧
    (load_and_validate_aidl ("wrong/Path.aidl").data demoLavEnvC5).phases =
      [.loadPreprocessed, .parsePrimary, .filenameCheck, .resolveImports] :=
  load_and_validate_returns_after_imports demoLavEnvC5 ("wrong/Path.aidl").data
    demoMismatchIface (by decide) (by decide) (by decide) (by decide)

/-- C5 counterexample: in the concrete environment `demoLavEnvC5` the
primary input parses as an interface, `check_filename` fails, and the
single import resolves and parses successfully, yet the run performs
neither package validation nor `check_types` nor method-id checking —
contradicting the claim that those phases still run. -/
theorem load_and_validate_skips_validation_cex :
    demoLavEnvC5.primary = .interfaceDoc demoMismatchIface ∧
    check_filename demoLavEnvC5.cwd ("wrong/Path.aidl").data
      demoMismatchIface.package.data demoMismatchIface.name.data = false ∧
    (∀ o ∈ demoLavEnvC5.importOutcomes, importErr o = 0) ∧
    Phase.validatePackage ∉
      (load_and_validate_aidl ("wrong/Path.aidl").data demoLavEnvC5).phases ∧
    Phase.checkTypesPhase ∉
      (load_and_validate_aidl ("wrong/Path.aidl").data demoLavEnvC5).phases ∧
    Phase.assignMethodIds ∉
      (load_and_validate_aidl ("wrong/Path.aidl").data demoLavEnvC5).phases := by
  decide

theorem takeWhile_append_of_forall (p : Char → Bool) (l1 l2 : List Char)
    (h : ∀ c ∈ l1, p c = true) :
    (l1 ++ l2).takeWhile p = l1 ++ l2.takeWhile p := by
  induction l1 with
  | nil => simp
  | cons a rest ih =>
    have ha : p a = true := h a (by simp)
    simp [List.takeWhile_cons, ha,
      ih (fun c hc => h c (List.mem_cons_of_mem _ hc))]

theorem dropWhile_append_of_forall (p : Char → Bool) (l1 l2 : List Char)
    (h : ∀ c ∈ l1, p c = true) :
    (l1 ++ l2).dropWhile p = l2.dropWhile p := by
  induction l1 with
  | nil => simp
  | cons a rest ih =>
    have ha : p a = true := h a (by simp)
    simp [List.dropWhile_cons, ha,
      ih (fun c hc => h c (List.mem_cons_of_mem _ hc))]

theorem dropWhile_ws_of_good_head (q tail2 : List Char) (hne : q ≠ [])
    (h : ∀ c ∈ q, sscanfWs c = false) :
    (q ++ tail2).dropWhile sscanfWs = q ++ tail2 := by
  cases q with
  | nil => exact absurd rfl hne
  | cons c cs =>
    have hc : sscanfWs c = false := h c (by simp)
    simp [List.dropWhile_cons, hc]

theorem scanFullname_of_good (q rest2 : List Char)
    (h : ∀ c ∈ q, sscanfWs c = false ∧ c ≠ ';') :
    scanFullname (q ++ ';' :: rest2) = q := by
  unfold scanFullname
  rw [takeWhile_append_of_forall _ q (';' :: rest2) ?_]
  · simp
  · intro c hc
    obtain ⟨hws, hsc⟩ := h c hc
    obtain ⟨⟨⟨⟨⟨h1, h2⟩, h3⟩, h4⟩, h5⟩, h6⟩ :
        ((((¬c = ' ' ∧ ¬c = '\t') ∧ ¬c = '\n') ∧ ¬c = '\x0b') ∧ ¬c = '\x0c') ∧
          ¬c = '\x0d' := by
      simpa [sscanfWs] using hws
    simp [hsc, h1, h2, h3, h6]

theorem splitAtLastDot_no_dot (s : List Char) (h : ∀ c ∈ s, c ≠ '.') :
    splitAtLastDot s = (none, s) := by
  simp only [splitAtLastDot]
  have h2 : ∀ c ∈ s.reverse, (decide (c ≠ '.')) = true := by
    intro c hc
    simp [h c (List.mem_reverse.mp hc)]
  have htake : s.reverse.takeWhile (fun ch => decide (ch ≠ '.')) = s.reverse := by
    have := takeWhile_append_of_forall (fun ch => decide (ch ≠ '.')) s.reverse [] h2
    simpa using this
  have hdrop : s.reverse.dropWhile (fun ch => decide (ch ≠ '.')) = [] := by
    have := dropWhile_append_of_forall (fun ch => decide (ch ≠ '.')) s.reverse [] h2
    simpa using this
  rw [htake, hdrop]
  simp

theorem splitAtLastDot_with_package (pkg nm : List Char) (h : ∀ c ∈ nm, c ≠ '.') :
    splitAtLastDot (pkg ++ '.' :: nm) = (some pkg, nm) := by
  simp only [splitAtLastDot]
  have hrev : (pkg ++ '.' :: nm).reverse = nm.reverse ++ '.' :: pkg.reverse := by
    simp
  rw [hrev]
  have h2 : ∀ c ∈ nm.reverse, (decide (c ≠ '.')) = true := by
    intro c hc
    simp [h c (List.mem_reverse.mp hc)]
  have htake : (nm.reverse ++ '.' :: pkg.reverse).takeWhile (fun ch => decide (ch ≠ '.')) =
      nm.reverse := by
    rw [takeWhile_append_of_forall _ _ _ h2]
    simp
  have hdrop : (nm.reverse ++ '.' :: pkg.reverse).dropWhile (fun ch => decide (ch ≠ '.')) =
      '.' :: pkg.reverse := by
    rw [dropWhile_append_of_forall _ _ _ h2]
    simp
  rw [htake, hdrop]
  simp

theorem splitOnChar_ne_nil (sep : Char) (l : List Char) : splitOnChar sep l ≠ [] := by
  cases l with
  | nil => simp [splitOnChar]
  | cons c rest =>
    simp only [splitOnChar]
    by_cases hc : c = sep
    · simp [hc]
    · rw [if_neg hc]
      cases h : splitOnChar sep rest <;> simp

theorem joinWith_splitOnChar (sep : Char) (l : List Char) :
    joinWith sep (splitOnChar sep l) = l := by
  induction l with
  | nil => rfl
  | cons c rest ih =>
    simp only [splitOnChar]
    obtain ⟨p, ps, hps⟩ : ∃ p ps, splitOnChar sep rest = p :: ps := by
      cases h : splitOnChar sep rest with
      | nil => exact absurd h (splitOnChar_ne_nil sep rest)
      | cons p ps => exact ⟨p, ps, rfl⟩
    rw [hps] at ih
    by_cases hc : c = sep
    · rw [if_pos hc, hps]
      show [] ++ sep :: joinWith sep (p :: ps) = c :: rest
      rw [List.nil_append, ih, hc]
    · rw [if_neg hc, hps]
      cases ps with
      | nil =>
        show c :: p = c :: rest
        have hp : p = rest := ih
        rw [hp]
      | cons p2 ps2 =>
        show (c :: p) ++ sep :: joinWith sep (p2 :: ps2) = c :: rest
        have hp : p ++ sep :: joinWith sep (p2 :: ps2) = rest := ih
        rw [List.cons_append, hp]

theorem scanToken_of_keyword (kw tail2 : List Char) (hne : kw ≠ [])
    (h : ∀ c ∈ kw, sscanfWs c = false) :
    scanToken (kw ++ ' ' :: tail2) = (kw, ' ' :: tail2) := by
  simp only [scanToken]
  have hb : ∀ c ∈ kw, (!sscanfWs c) = true := by
    intro c hc
    simp [h c hc]
  rw [dropWhile_ws_of_good_head kw (' ' :: tail2) hne h]
  rw [takeWhile_append_of_forall _ _ _ hb, dropWhile_append_of_forall _ _ _ hb]
  simp [sscanfWs]

theorem parse_preprocessed_line_eval (kw Q : List Char)
    (hQne : Q ≠ []) (hQgood : ∀ c ∈ Q, sscanfWs c = false ∧ c ≠ ';')
    (hkne : kw ≠ []) (hkgood : ∀ c ∈ kw, sscanfWs c = false)
    (htake2 : (kw ++ ' ' :: (Q ++ (";\n").data)).take 2 ≠ ("//").data) :
    parse_preprocessed_line (kw ++ ' ' :: (Q ++ (";\n").data)) =
      (if kw = ("parcelable").data then
        PreprocessedLineResult.entry .parcelable
          (match (splitAtLastDot Q).1 with
           | none => []
           | some t => splitOnChar '.' t) (splitAtLastDot Q).2
      else if kw = ("interface").data then
        PreprocessedLineResult.entry .interfaceDecl
          (match (splitAtLastDot Q).1 with
           | none => []
           | some t => splitOnChar '.' t) (splitAtLastDot Q).2
      else .badType) := by
  have hlne : ¬(kw ++ ' ' :: (Q ++ (";\n").data) = []) := by
    simp
  have hst := scanToken_of_keyword kw (Q ++ (";\n").data) hkne hkgood
  have hdrop2 : (' ' :: (Q ++ (";\n").data)).dropWhile sscanfWs = Q ++ (";\n").data := by
    rw [List.dropWhile_cons]
    rw [if_pos (by decide : sscanfWs ' ' = true)]
    exact dropWhile_ws_of_good_head Q _ hQne (fun c hc => (hQgood c hc).1)
  have hfull : scanFullname (Q ++ (";\n").data) = Q := by
    rw [show (";\n").data = ';' :: ['\n'] from rfl]
    exact scanFullname_of_good Q ['\n'] hQgood
  simp only [parse_preprocessed_line]
  rw [if_neg hlne, if_neg htake2, hst]
  simp only []
  rw [hdrop2, hfull]

/-- C7: parsing a line emitted by `preprocess_aidl` yields an entry of
the same declaration kind whose canonical fully qualified name equals
the printed qualified name, for every declaration whose package and name
texts use ordinary identifier characters (no sscanf whitespace, no
semicolon, no dot inside the name). -/
theorem preprocess_line_round_trip (d : PreprocessedDecl)
    (hname : d.name ≠ [])
    (hnc : ∀ c ∈ d.name, sscanfWs c = false ∧ c ≠ ';' ∧ c ≠ '.')
    (hpc : ∀ c ∈ d.package, sscanfWs c = false ∧ c ≠ ';') :
    ∃ pkg, parse_preprocessed_line (preprocess_line d) =
      PreprocessedLineResult.entry d.kind pkg d.name ∧
      canonicalName pkg d.name = qualifiedName d := by
  have hQgood : ∀ c ∈ qualifiedName d, sscanfWs c = false ∧ c ≠ ';' := by
    intro c hc
    unfold qualifiedName at hc
    rcases List.mem_append.mp hc with hc | hc
    · by_cases hp : d.package = []
      · rw [if_pos hp] at hc
        simp at hc
      · rw [if_neg hp] at hc
        rcases List.mem_append.mp hc with hc | hc
        · exact hpc c hc
        · simp at hc
          subst hc
          exact ⟨by decide, by decide⟩
    · obtain ⟨a, b, _⟩ := hnc c hc
      exact ⟨a, b⟩
  have hQne : qualifiedName d ≠ [] := by
    unfold qualifiedName
    intro hq
    exact hname (List.append_eq_nil.mp hq).2
  by_cases hp : d.package = []
  · have hQ : qualifiedName d = d.name := by
      simp [qualifiedName, hp]
    have hsplit : splitAtLastDot (qualifiedName d) = (none, d.name) := by
      rw [hQ]
      exact splitAtLastDot_no_dot d.name (fun c hc => (hnc c hc).2.2)
    refine ⟨[], ?_, ?_⟩
    · cases hk : d.kind
      · have hline : preprocess_line d =
            ("parcelable").data ++ ' ' :: (qualifiedName d ++ (";\n").data) := by
          simp only [preprocess_line, hk]
          simp [List.append_assoc]
        rw [hline]
        rw [parse_preprocessed_line_eval ("parcelable").data (qualifiedName d) hQne hQgood
          (by decide) (by decide)
          (by rw [List.take_append_of_le_length (by decide : 2 ≤ (("parcelable").data).length)]
              decide)]
        rw [if_pos rfl, hsplit]
      · have hline : preprocess_line d =
            ("interface").data ++ ' ' :: (qualifiedName d ++ (";\n").data) := by
          simp only [preprocess_line, hk]
          simp [List.append_assoc]
        rw [hline]
        rw [parse_preprocessed_line_eval ("interface").data (qualifiedName d) hQne hQgood
          (by decide) (by decide)
          (by rw [List.take_append_of_le_length (by decide : 2 ≤ (("interface").data).length)]
              decide)]
        rw [if_neg (by decide), if_pos rfl, hsplit]
    · simp [canonicalName, hQ]
  · have hQ : qualifiedName d = d.package ++ '.' :: d.name := by
      simp [qualifiedName, hp]
    have hsplit : splitAtLastDot (qualifiedName d) = (some d.package, d.name) := by
      rw [hQ]
      exact splitAtLastDot_with_package _ _ (fun c hc => (hnc c hc).2.2)
    refine ⟨splitOnChar '.' d.package, ?_, ?_⟩
    · cases hk : d.kind
      · have hline : preprocess_line d =
            ("parcelable").data ++ ' ' :: (qualifiedName d ++ (";\n").data) := by
          simp only [preprocess_line, hk]
          simp [List.append_assoc]
        rw [hline]
        rw [parse_preprocessed_line_eval ("parcelable").data (qualifiedName d) hQne hQgood
          (by decide) (by decide)
          (by rw [List.take_append_of_le_length (by decide : 2 ≤ (("parcelable").data).length)]
              decide)]
        rw [if_pos rfl, hsplit]
      · have hline : preprocess_line d =
            ("interface").data ++ ' ' :: (qualifiedName d ++ (";\n").data) := by
          simp only [preprocess_line, hk]
          simp [List.append_assoc]
        rw [hline]
        rw [parse_preprocessed_line_eval ("interface").data (qualifiedName d) hQne hQgood
          (by decide) (by decide)
          (by rw [List.take_append_of_le_length (by decide : 2 ≤ (("interface").data).length)]
              decide)]
        rw [if_neg (by decide), if_pos rfl, hsplit]
    · rw [hQ]
      obtain ⟨p, ps, hps⟩ : ∃ p ps, splitOnChar '.' d.package = p :: ps := by
        cases h2 : splitOnChar '.' d.package with
        | nil => exact absurd h2 (splitOnChar_ne_nil '.' d.package)
        | cons p ps => exact ⟨p, ps, rfl⟩
      rw [hps]
      show joinWith '.' (p :: ps) ++ '.' :: d.name = d.package ++ '.' :: d.name
      rw [← hps, joinWith_splitOnChar '.' d.package]

/-- C7 witness: evaluation of the theorem on the concrete declaration
`parcelable com.x.Foo`. -/
theorem preprocess_line_round_trip_witness :
    ∃ pkg, parse_preprocessed_line (preprocess_line demoPreDecl) =
      PreprocessedLineResult.entry demoPreDecl.kind pkg demoPreDecl.name ∧
      canonicalName pkg demoPreDecl.name = qualifiedName demoPreDecl :=
  preprocess_line_round_trip demoPreDecl (by decide) (by decide) (by decide)

theorem preprocessWriteLoop_fail (oracle : Nat → Nat) (lines : List (List Char)) :
    ∀ (k : Nat) (fs : PreprocessFS),
      (∃ i, i < lines.length ∧ oracle (k + i) < (lines.getD i []).length) →
      preprocessWriteLoop oracle lines k fs =
        (1, { fileExists := false, content := [], fdOpen := false }) := by
  induction lines with
  | nil =>
    intro k fs h
    obtain ⟨i, hi, _⟩ := h
    exact absurd hi (by simp)
  | cons s rest ih =>
    intro k fs h
    simp only [preprocessWriteLoop]
    by_cases hw : min (oracle k) s.length ≠ s.length
    · rw [if_pos hw]
    · rw [if_neg hw]
      push_neg at hw
      apply ih
      obtain ⟨i, hi, hlt⟩ := h
      cases i with
      | zero =>
        exfalso
        simp only [Nat.add_zero, List.getD_cons_zero] at hlt
        omega
      | succ j =>
        refine ⟨j, by simpa using hi, ?_⟩
        have hidx : k + 1 + j = k + (j + 1) := by omega
        rw [hidx]
        simpa using hlt

/-- C8: when the output opened successfully but some write falls short,
`preprocess_aidl`'s write phase returns nonzero, closes the descriptor
and unlinks the output, so no partial preprocessed file remains. -/
theorem preprocess_write_failure_unlinks (lines : List (List Char))
    (oracle : Nat → Nat) (fs0 : PreprocessFS)
    (hfail : ∃ i, i < lines.length ∧ oracle i < (lines.getD i []).length) :
    (preprocess_write lines oracle true fs0).1 = 1 ∧
    (preprocess_write lines oracle true fs0).2.fileExists = false ∧
    (preprocess_write lines oracle true fs0).2.content = [] ∧
    (preprocess_write lines oracle true fs0).2.fdOpen = false := by
  unfold preprocess_write
  rw [if_pos rfl]
  rw [preprocessWriteLoop_fail oracle lines 0
    { fileExists := true, content := [], fdOpen := true } (by simpa using hfail)]
  exact ⟨rfl, rfl, rfl, rfl⟩

/-- C8 witness: a concrete two-byte line whose write accepts one byte. -/
theorem preprocess_write_failure_unlinks_witness :
    (preprocess_write [("ab").data] (fun _ => 1) true ⟨false, [], false⟩).1 = 1 ∧
    (preprocess_write [("ab").data] (fun _ => 1) true ⟨false, [], false⟩).2.fileExists = false ∧
    (preprocess_write [("ab").data] (fun _ => 1) true ⟨false, [], false⟩).2.content = [] ∧
    (preprocess_write [("ab").data] (fun _ => 1) true ⟨false, [], false⟩).2.fdOpen = false :=
  preprocess_write_failure_unlinks [("ab").data] (fun _ => 1) ⟨false, [], false⟩
    ⟨0, by decide, by decide⟩

/-- C10: `compile_aidl_to_cpp` always hands `load_and_validate_aidl` an
empty preprocessed-files list, while `compile_aidl_to_java` hands it the
options' preprocessed files, so only the Java compile path can load
preprocessed declarations. -/
theorem compile_tasks_preprocessed_files_args :
    (∀ options : CppOptions,
      (compile_aidl_to_cpp_lavCall options).preprocessed_files = []) ∧
    (∀ options : JavaOptions,
      (compile_aidl_to_java_lavCall options).preprocessed_files =
        options.preprocessed_files_) :=
  ⟨fun _ => rfl, fun _ => rfl⟩

end Aidl
